import Mathlib

set_option autoImplicit false

/-!
Verification of the UnrealMCP TCP server core (`Source/UnrealMCP/Public/MCPTCPServer.h`)
against its natural-language specification.

The repository ships only the interface header; the method bodies
(`ProcessClientData`, `ProcessCommand`, `CheckClientTimeouts`, `Start`, `Stop`,
`RegisterCommandHandler`, ...) are not part of the sources available here, so
those operations are modelled from the specification text (each such definition
says so in its doc comment).  The pieces of executable code that are present in
the header — the `FMCPClientConnection` constructor and `IsRunning` — are
embedded directly from the source.
-/

namespace UnrealMCP

/-! ## Framing-engine scanner

Modelled from the spec, §4.3: scan bytes tracking (a) brace depth, incremented
on an opening brace and decremented on a closing brace, and (b) whether the
scan position is inside a quoted string, toggled on an unescaped quote,
ignoring escaped characters signaled by a preceding unescaped backslash.
A message is complete the instant brace depth returns to zero after having
been positive. -/

/-- State of the framing scan: brace depth, whether the position is inside a
quoted string, and whether the previous in-string character was an unescaped
backslash. -/
structure ScanState where
  depth : Int
  inString : Bool
  escaped : Bool
deriving DecidableEq

/-- One step of the framing scan over a single character. -/
def scanStep (st : ScanState) (c : Char) : ScanState :=
  if st.inString then
    if st.escaped then ⟨st.depth, true, false⟩
    else if c = '\\' then ⟨st.depth, true, true⟩
    else if c = '"' then ⟨st.depth, false, false⟩
    else st
  else
    if c = '"' then ⟨st.depth, true, false⟩
    else if c = '{' then ⟨st.depth + 1, false, false⟩
    else if c = '}' then ⟨st.depth - 1, false, false⟩
    else st

/-- The character `c`, scanned in state `st`, closes the outermost object:
an unescaped closing brace outside any string that returns the depth to zero
after it has been positive. -/
def completesAt (st : ScanState) (c : Char) : Prop :=
  st.inString = false ∧ st.escaped = false ∧ c = '}' ∧ st.depth = 1

instance (st : ScanState) (c : Char) : Decidable (completesAt st c) := by
  unfold completesAt; infer_instance

/-- Scan a byte list for the first complete top-level object; returns the
number of characters up to and including the completing brace, or `none` when
no complete top-level object is present. -/
def scanAux : ScanState → List Char → Option Nat
  | _, [] => none
  | st, c :: cs =>
    if completesAt st c then some 1
    else (scanAux (scanStep st c) cs).map (fun n => n + 1)

/-- Run the scan state machine over a whole list of characters. -/
def runScan (st : ScanState) (cs : List Char) : ScanState :=
  cs.foldl scanStep st

/-- The scan state at the start of a buffer: depth zero, outside any string. -/
def initScan : ScanState :=
  ⟨0, false, false⟩

def scanAux_bounds : ∀ (st : ScanState) (xs : List Char) (n : Nat),
    scanAux st xs = some n → 1 ≤ n ∧ n ≤ xs.length := by
  intro st xs
  induction xs generalizing st with
  | nil =>
    intro n h
    simp [scanAux] at h
  | cons c cs ih =>
    intro n h
    by_cases hc : completesAt st c
    · simp [scanAux, hc] at h
      simp only [List.length_cons]
      omega
    · simp only [scanAux, if_neg hc, Option.map_eq_some'] at h
      obtain ⟨m, hm, hn⟩ := h
      have := ih (scanStep st c) m hm
      simp only [List.length_cons]
      omega

/-- A chunk of characters is transparent for the scan in state `st` when
scanning it completes no message and returns the scan to the same state. -/
def Transparent (st : ScanState) (xs : List Char) : Prop :=
  scanAux st xs = none ∧ runScan st xs = st

/-- Decimal digit character for `n % 10`. -/
def digitChar (n : Nat) : Char :=
  Char.ofNat (48 + n % 10)

/-- Decimal digit representation of a natural number, most significant first. -/
def natDigits (n : Nat) : List Char :=
  if n < 10 then [digitChar n]
  else natDigits (n / 10) ++ [digitChar (n % 10)]
termination_by n
decreasing_by exact Nat.div_lt_self (by omega) (by omega)

/-- Textual form of an integer JSON number. -/
def serializeNum (n : Int) : List Char :=
  if n < 0 then '-' :: natDigits n.natAbs else natDigits n.natAbs

/-! ## String literals -/

/-- JSON escaping of one string character: quote and backslash get a
preceding backslash, every other character is emitted unchanged. -/
def escChar (c : Char) : List Char :=
  if c = '"' ∨ c = '\\' then ['\\', c] else [c]

/-- JSON escaping of a whole string body. -/
def escString : List Char → List Char
  | [] => []
  | c :: cs => escChar c ++ escString cs

/-- Serialized form of a JSON string literal. -/
def strLit (s : List Char) : List Char :=
  '"' :: escString s ++ ['"']

/-! ## The JSON data model

A value of the wire protocol: stream of UTF-8 JSON values.  Numbers are
modelled as integers; `JsonList` and `JsonFields` make the nesting a mutual
inductive so that structural recursion and induction stay simple. -/

mutual
inductive Json where
  | null : Json
  | boolean : Bool → Json
  | num : Int → Json
  | str : List Char → Json
  | arr : JsonList → Json
  | obj : JsonFields → Json

inductive JsonList where
  | nil : JsonList
  | cons : Json → JsonList → JsonList

inductive JsonFields where
  | nil : JsonFields
  | cons : List Char → Json → JsonFields → JsonFields
end

mutual
/-- Serialize a JSON value to its textual byte form. -/
def serialize : Json → List Char
  | .null => "null".toList
  | .boolean true => "true".toList
  | .boolean false => "false".toList
  | .num n => serializeNum n
  | .str s => strLit s
  | .arr xs => '[' :: serializeArr xs ++ [']']
  | .obj fs => '{' :: serializeObj fs ++ ['}']

/-- Serialize the elements of a JSON array, comma separated. -/
def serializeArr : JsonList → List Char
  | .nil => []
  | .cons v tl => serialize v ++ serializeArrRest tl

/-- Serialize the remaining elements of a JSON array, each preceded by a comma. -/
def serializeArrRest : JsonList → List Char
  | .nil => []
  | .cons v tl => ',' :: serialize v ++ serializeArrRest tl

/-- Serialize the fields of a JSON object, comma separated. -/
def serializeObj : JsonFields → List Char
  | .nil => []
  | .cons k v tl => strLit k ++ ':' :: serialize v ++ serializeObjRest tl

/-- Serialize the remaining fields of a JSON object, each preceded by a comma. -/
def serializeObjRest : JsonFields → List Char
  | .nil => []
  | .cons k v tl => ',' :: strLit k ++ ':' :: serialize v ++ serializeObjRest tl
end

/-! ## The framing engine

Modelled from the spec, §4.3: when a complete message is found, its byte range
is removed from the front of the buffer and the scan restarts from offset zero
to look for additional concatenated messages; scanning stops, leaving the
buffer untouched, when no complete top-level object is found. -/

/-- Extract all complete top-level messages from the front of the buffer,
returning them in order together with the remaining (unconsumed) buffer. -/
def extractFrames (buf : List Char) : List (List Char) × List Char :=
  match h : scanAux initScan buf with
  | none => ([], buf)
  | some n =>
    (buf.take n :: (extractFrames (buf.drop n)).1, (extractFrames (buf.drop n)).2)
termination_by buf.length
decreasing_by
  all_goals
    have hb := scanAux_bounds _ _ _ h
    simp only [List.length_drop]
    omega

/-! ## Incremental feeding of chunks

The connection's receive buffer accumulates chunks as they arrive; after each
append, the framing engine extracts every complete message (spec §4.2-§4.3). -/

/-- Feed one received chunk: append it to the unconsumed buffer, then extract
complete messages. The first component accumulates extracted messages. -/
def feedChunk (s : List (List Char) × List Char) (chunk : List Char) :
    List (List Char) × List Char :=
  (s.1 ++ (extractFrames (s.2 ++ chunk)).1, (extractFrames (s.2 ++ chunk)).2)

/-- Feed a sequence of chunks to a fresh connection buffer. -/
def feedAll (chunks : List (List Char)) : List (List Char) × List Char :=
  chunks.foldl feedChunk ([], [])

/-! ## Source-embedded data: configuration and client connection record -/

/-- Configuration struct for the TCP server, embedded from the header,
lines 14-30.  The two `float` fields are modelled as rationals. -/
structure FMCPTCPServerConfig where
  Port : Int
  ClientTimeoutSeconds : ℚ
  ReceiveBufferSize : Nat
  TickIntervalSeconds : ℚ
  bEnableVerboseLogging : Bool

/-- The in-header default member values: port 1337, client timeout 30 s,
receive buffer 8192 bytes, tick interval 0.1 s, verbose logging off. -/
def defaultConfig : FMCPTCPServerConfig :=
  ⟨1337, 30, 8192, 1 / 10, false⟩

/-- Client connection record, embedded from the header, lines 35-62:
socket, endpoint, idle-time accumulator and the receive byte array. -/
structure FMCPClientConnection where
  Socket : Nat
  Endpoint : Nat × Nat
  TimeSinceLastActivity : ℚ
  ReceiveBuffer : List Nat

/-- Constructor of `FMCPClientConnection`, embedded from the header,
lines 55-61: stores the socket and endpoint, initialises
`TimeSinceLastActivity` to `0.0f`, and calls
`ReceiveBuffer.SetNumUninitialized(BufferSize)`, which gives the array
`BufferSize` elements of unspecified content (modelled as zeros; only the
length is observable in this development). -/
def mkFMCPClientConnection (inSocket : Nat) (inEndpoint : Nat × Nat)
    (bufferSize : Nat) : FMCPClientConnection :=
  ⟨inSocket, inEndpoint, 0, List.replicate bufferSize 0⟩

/-- Modelled from the spec: the body of
`FMCPTCPServer::HandleConnectionAccepted` is absent from src/ — §4.1: the
core wraps the accepted socket and endpoint into a Connection and inserts it
into the active connection set, sized by the configured receive buffer size
(the constructor itself is source-embedded above). -/
def HandleConnectionAccepted (cfg : FMCPTCPServerConfig)
    (conns : List FMCPClientConnection) (inSocket : Nat)
    (endpoint : Nat × Nat) : List FMCPClientConnection :=
  conns ++ [mkFMCPClientConnection inSocket endpoint cfg.ReceiveBufferSize]

/-! ## Spec-level connection state, reader and timeout sweeper -/

/-- Modelled from the spec: §3 Connection — exclusively owned transport
handle, remote address, idle-time accumulator, and the growing buffer of
not-yet-consumed received bytes. -/
structure Connection where
  handle : Nat
  remote : Nat × Nat
  idleSeconds : ℚ
  buffer : List Char

/-- Modelled from the spec: the body of `FMCPTCPServer::CheckClientTimeouts`
is absent from src/ — §4.5: add the tick's elapsed time to `idleSeconds` of
every active connection, then evict every connection whose `idleSeconds`
meets or exceeds the client timeout. -/
def CheckClientTimeouts (timeout delta : ℚ) (conns : List Connection) :
    List Connection :=
  (conns.map (fun c => ⟨c.handle, c.remote, c.idleSeconds + delta, c.buffer⟩)).filter
    (fun c => decide (c.idleSeconds < timeout))

/-- Modelled from the spec: one tick's effect on idle bookkeeping — §4.2: any
successful non-zero read resets `idleSeconds` to 0; §4.5: the sweep runs
after read/dispatch.  `reads h = true` means the connection with handle `h`
had a successful non-zero read during this tick. -/
def tickIdle (timeout delta : ℚ) (reads : Nat → Bool)
    (conns : List Connection) : List Connection :=
  CheckClientTimeouts timeout delta
    (conns.map fun c => if reads c.handle then ⟨c.handle, c.remote, 0, c.buffer⟩ else c)

/-- Modelled from the spec: §4.2 read, framing and oversize policy for one
connection — append the received bytes, extract all complete frames, and
evict the connection (`none`) when the unconsumed remainder exceeds twice
the configured receive buffer size. -/
def readAndFrame (receiveBufferSize : Nat) (incoming : List Char)
    (c : Connection) : Option (Connection × List (List Char)) :=
  if 2 * receiveBufferSize < (extractFrames (c.buffer ++ incoming)).2.length then none
  else some (⟨c.handle, c.remote, c.idleSeconds, (extractFrames (c.buffer ++ incoming)).2⟩,
    (extractFrames (c.buffer ++ incoming)).1)

/-- Modelled from the spec: the read phase of the tick over the whole active
set; evicted connections are dropped.  `incoming h` is the byte sequence the
transport delivered for handle `h` during this tick. -/
def readPhase (receiveBufferSize : Nat) (incoming : Nat → List Char)
    (conns : List Connection) : List Connection :=
  conns.filterMap fun c => (readAndFrame receiveBufferSize (incoming c.handle) c).map Prod.fst

/-! ## Handler registry and dispatcher -/

/-- Command handler capability, embedded from the header, lines 68-86:
`GetCommandName` names the command the handler responds to, `HandleCommand`
maps the request parameters to a response.  The spec (§4.4, §6) requires the
handler interface to admit failure — `handle(params) -> JSON value, or
failure` — modelled with `Except`, the error carrying the description. -/
structure IMCPCommandHandler where
  GetCommandName : List Char
  HandleCommand : Json → Except (List Char) Json

/-- Modelled from the spec: the body of
`FMCPTCPServer::RegisterCommandHandler` is absent from src/ — §3: the
registry maps name to handler with unique keys, registering an existing name
replaces the prior handler (last write wins); the header signature takes
only the handler, so the key is the handler's own `GetCommandName`. -/
def RegisterCommandHandler :
    List (List Char × IMCPCommandHandler) → IMCPCommandHandler →
      List (List Char × IMCPCommandHandler)
  | [], h => [(h.GetCommandName, h)]
  | (k, v) :: tl, h =>
    if k = h.GetCommandName then (k, h) :: tl
    else (k, v) :: RegisterCommandHandler tl h

/-- Modelled from the spec: the body of
`FMCPTCPServer::UnregisterCommandHandler` is absent from src/ — removes the
registration stored under the given command name. -/
def UnregisterCommandHandler :
    List (List Char × IMCPCommandHandler) → List Char →
      List (List Char × IMCPCommandHandler)
  | [], _ => []
  | (k, v) :: tl, name =>
    if k = name then UnregisterCommandHandler tl name
    else (k, v) :: UnregisterCommandHandler tl name

/-- Lookup of a command name in the handler registry. -/
def registryLookup :
    List (List Char × IMCPCommandHandler) → List Char → Option IMCPCommandHandler
  | [], _ => none
  | (k, v) :: tl, name => if k = name then some v else registryLookup tl name

/-- Every registry entry is keyed by the string its handler returns from
`GetCommandName`. -/
def RegistryKeysMatch (reg : List (List Char × IMCPCommandHandler)) : Prop :=
  ∀ p ∈ reg, p.1 = p.2.GetCommandName

/-- Field lookup in a JSON object's field list. -/
def fieldsLookup : JsonFields → List Char → Option Json
  | .nil, _ => none
  | .cons k v tl, name => if k = name then some v else fieldsLookup tl name

/-- The required `command` string field of a request (spec §4.4). -/
def getCommand : Json → Option (List Char)
  | .obj fs =>
    match fieldsLookup fs "command".toList with
    | some (.str s) => some s
    | _ => none
  | _ => none

/-- The `params` field of a request, defaulting to an empty object when
absent (spec §4.4). -/
def getParams : Json → Json
  | .obj fs =>
    match fieldsLookup fs "params".toList with
    | some p => p
    | _ => Json.obj JsonFields.nil
  | _ => Json.obj JsonFields.nil

/-- Error response envelope (spec §3, §6). -/
def envError (msg : List Char) : Json :=
  Json.obj (JsonFields.cons "status".toList (Json.str "error".toList)
    (JsonFields.cons "message".toList (Json.str msg) JsonFields.nil))

/-- Success response envelope (spec §3, §6). -/
def envOk (r : Json) : Json :=
  Json.obj (JsonFields.cons "status".toList (Json.str "ok".toList)
    (JsonFields.cons "result".toList r JsonFields.nil))

/-- Modelled from the spec: JSON text parsing is an external collaborator
(§1, §4.4), so the dispatcher is modelled on the parse outcome of the framed
message text. -/
inductive ParseResult where
  | malformed : ParseResult
  | parsed : Json → ParseResult

/-- Modelled from the spec: the body of `FMCPTCPServer::ProcessCommand` is
absent from src/ — §4.4 Dispatcher: parse failure yields the
invalid-json error envelope with no handler invoked; a missing `command`
string field yields the missing-command envelope; an unregistered command
yields the unknown-command envelope; otherwise the resolved handler is
invoked on the `params` field, its failure is caught and converted to an
error envelope, and its success is wrapped in an ok envelope. -/
def ProcessCommandResponse (reg : List (List Char × IMCPCommandHandler))
    (msg : ParseResult) : Json :=
  match msg with
  | .malformed => envError "invalid json".toList
  | .parsed j =>
    match getCommand j with
    | none => envError "missing command".toList
    | some name =>
      match registryLookup reg name with
      | none => envError ("unknown command: ".toList ++ name)
      | some h =>
        match h.HandleCommand (getParams j) with
        | .error d => envError d
        | .ok r => envOk r

/-- Modelled from the spec: server state relevant to the dispatcher and
lifecycle claims — running flag, active connection set, handler registry
(header lines 205-221). -/
structure ServerState where
  bRunning : Bool
  ClientConnections : List Connection
  CommandHandlers : List (List Char × IMCPCommandHandler)

/-- Modelled from the spec: `ProcessCommand` computes the response envelope
and sends it on the same connection; §4.4 and §7 — the connection stays
open and neither the connection set nor the scheduler state changes. -/
def ProcessCommand (s : ServerState) (msg : ParseResult) : ServerState × Json :=
  (s, ProcessCommandResponse s.CommandHandlers msg)

/-- Dispatch a whole tick's framed messages in order, collecting responses. -/
def ProcessMessages (s : ServerState) (msgs : List ParseResult) :
    ServerState × List Json :=
  msgs.foldl
    (fun acc m => ((ProcessCommand acc.1 m).1, acc.2 ++ [(ProcessCommand acc.1 m).2]))
    (s, [])

/-- Frame-then-dispatch for one read (spec §2 control flow): extract every
complete message from the buffer and produce their responses in order;
`parse` abstracts the external JSON parser. -/
def dispatchFrames (reg : List (List Char × IMCPCommandHandler))
    (parse : List Char → ParseResult) (buf : List Char) :
    List Json × List Char :=
  ((extractFrames buf).1.map (fun m => ProcessCommandResponse reg (parse m)),
    (extractFrames buf).2)

/-! ## Server lifecycle -/

/-- Modelled from the spec: the body of `FMCPTCPServer::Start` is absent
from src/ — §4.7: on bind success the server enters the running state and
`Start` returns true; failure to bind is reported (false) and the server
remains not-running.  `bindOk` abstracts the external transport's bind
outcome. -/
def Start (s : ServerState) (bindOk : Bool) : ServerState × Bool :=
  if bindOk then (⟨true, s.ClientConnections, s.CommandHandlers⟩, true)
  else (s, false)

/-- Modelled from the spec: the body of `FMCPTCPServer::Stop` is absent from
src/ — §4.7: deregisters the tick callback, evicts and closes every active
connection, closes the listener; the server leaves the running state. -/
def Stop (s : ServerState) : ServerState :=
  ⟨false, [], s.CommandHandlers⟩

/-- Running-state query, embedded from the header, line 121:
`bool IsRunning() const { return bRunning; }`. -/
def IsRunning (s : ServerState) : Bool :=
  s.bRunning

/-- Modelled from the spec: the freshly constructed server is not running
and has no connections (running begins only with a successful `Start`). -/
def initialServer : ServerState :=
  ⟨false, [], []⟩

/-- Lifecycle events: a `Start` attempt with its bind outcome, or `Stop`. -/
inductive ServerEvent where
  | start : Bool → ServerEvent
  | stop : ServerEvent
deriving DecidableEq

/-- Apply one lifecycle event to the server state. -/
def applyEvent (s : ServerState) (e : ServerEvent) : ServerState :=
  match e with
  | .start ok => (Start s ok).1
  | .stop => Stop s

/-- Run a sequence of lifecycle events from the freshly constructed server. -/
def runEvents (evts : List ServerEvent) : ServerState :=
  evts.foldl applyEvent initialServer

/-! ## Theorems -/

theorem runScan_nil (st : ScanState) : runScan st [] = st := rfl

theorem runScan_cons (st : ScanState) (c : Char) (cs : List Char) :
    runScan st (c :: cs) = runScan (scanStep st c) cs := rfl

theorem runScan_append (st : ScanState) (xs ys : List Char) :
    runScan st (xs ++ ys) = runScan (runScan st xs) ys :=
  List.foldl_append _ _ _ _

theorem scanAux_cons_of_not (st : ScanState) (c : Char) (cs : List Char)
    (hc : ¬ completesAt st c) :
    scanAux st (c :: cs) = (scanAux (scanStep st c) cs).map (fun n => n + 1) := by
  simp [scanAux, hc]

theorem scanAux_cons_of_completes (st : ScanState) (c : Char) (cs : List Char)
    (hc : completesAt st c) : scanAux st (c :: cs) = some 1 := by
  simp [scanAux, hc]

theorem scanAux_append_of_none (st : ScanState) (xs ys : List Char)
    (h : scanAux st xs = none) :
    scanAux st (xs ++ ys) = (scanAux (runScan st xs) ys).map (fun n => n + xs.length) := by
  induction xs generalizing st with
  | nil =>
    simp [runScan]
  | cons c cs ih =>
    have hnc : ¬ completesAt st c := fun hcc => by
      rw [scanAux_cons_of_completes _ _ _ hcc] at h
      exact Option.noConfusion h
    rw [scanAux_cons_of_not _ _ _ hnc] at h
    have h2 : scanAux (scanStep st c) cs = none := Option.map_eq_none'.mp h
    rw [List.cons_append, scanAux_cons_of_not _ _ _ hnc, ih _ h2, runScan_cons]
    cases scanAux (runScan (scanStep st c) cs) ys with
    | none => rfl
    | some m =>
      simp only [Option.map_some', List.length_cons, Option.some.injEq]
      omega

theorem scanAux_append_of_some (st : ScanState) (xs ys : List Char) (n : Nat)
    (h : scanAux st xs = some n) :
    scanAux st (xs ++ ys) = some n := by
  induction xs generalizing st n with
  | nil => simp [scanAux] at h
  | cons c cs ih =>
    by_cases hc : completesAt st c
    · rw [scanAux_cons_of_completes _ _ _ hc] at h
      rw [List.cons_append, scanAux_cons_of_completes _ _ _ hc]
      exact h
    · rw [scanAux_cons_of_not _ _ _ hc] at h
      obtain ⟨m, hm, hn⟩ := Option.map_eq_some'.mp h
      rw [List.cons_append, scanAux_cons_of_not _ _ _ hc, ih _ _ hm]
      simp [hn]

theorem transparent_nil (st : ScanState) : Transparent st [] :=
  ⟨rfl, rfl⟩

theorem Transparent.append {st : ScanState} {xs ys : List Char}
    (hx : Transparent st xs) (hy : Transparent st ys) : Transparent st (xs ++ ys) := by
  refine ⟨?_, ?_⟩
  · rw [scanAux_append_of_none st xs ys hx.1, hx.2, hy.1]
    rfl
  · rw [runScan_append, hx.2, hy.2]

theorem transparent_cons_of_step {st : ScanState} {c : Char} {xs : List Char}
    (h1 : ¬ completesAt st c) (h2 : scanStep st c = st)
    (hx : Transparent st xs) : Transparent st (c :: xs) := by
  refine ⟨?_, ?_⟩
  · simp [scanAux, h1, h2, hx.1]
  · rw [runScan_cons, h2, hx.2]

/-! ## Characters that the scanner ignores outside strings -/

theorem transparent_plain (d : Int) (s : List Char)
    (h : ∀ c ∈ s, c ≠ '"' ∧ c ≠ '{' ∧ c ≠ '}') :
    Transparent ⟨d, false, false⟩ s := by
  induction s with
  | nil => exact transparent_nil _
  | cons c cs ih =>
    obtain ⟨h1, h2, h3⟩ := h c (List.mem_cons_self c cs)
    refine transparent_cons_of_step ?_ ?_ (ih fun x hx => h x (List.mem_cons_of_mem c hx))
    · intro hc
      exact h3 hc.2.2.1
    · simp [scanStep, h1, h2, h3]

theorem digitChar_plain (k : Nat) :
    digitChar k ≠ '"' ∧ digitChar k ≠ '{' ∧ digitChar k ≠ '}' := by
  unfold digitChar
  have h : k % 10 < 10 := Nat.mod_lt _ (by norm_num)
  generalize k % 10 = m at h ⊢
  interval_cases m <;> exact ⟨by decide, by decide, by decide⟩

theorem natDigits_plain (n : Nat) :
    ∀ c ∈ natDigits n, c ≠ '"' ∧ c ≠ '{' ∧ c ≠ '}' := by
  induction n using Nat.strong_induction_on with
  | _ n ih =>
    intro c hc
    rw [natDigits] at hc
    by_cases h : n < 10
    · rw [if_pos h] at hc
      simp only [List.mem_singleton] at hc
      subst hc
      exact digitChar_plain n
    · rw [if_neg h] at hc
      rcases List.mem_append.mp hc with h2 | h2
      · exact ih (n / 10) (Nat.div_lt_self (by omega) (by omega)) c h2
      · simp only [List.mem_singleton] at h2
        subst h2
        exact digitChar_plain (n % 10)

theorem serializeNum_plain (n : Int) :
    ∀ c ∈ serializeNum n, c ≠ '"' ∧ c ≠ '{' ∧ c ≠ '}' := by
  intro c hc
  unfold serializeNum at hc
  by_cases h : n < 0
  · rw [if_pos h] at hc
    rcases List.mem_cons.mp hc with h2 | h2
    · subst h2
      exact ⟨by decide, by decide, by decide⟩
    · exact natDigits_plain _ c h2
  · rw [if_neg h] at hc
    exact natDigits_plain _ c hc

theorem transparent_escString (d : Int) (s : List Char) :
    Transparent ⟨d, true, false⟩ (escString s) := by
  induction s with
  | nil => exact transparent_nil _
  | cons c cs ih =>
    have h1 : Transparent ⟨d, true, false⟩ (escChar c) := by
      by_cases h : c = '"' ∨ c = '\\'
      · refine ⟨?_, ?_⟩
        · simp [escChar, h, scanAux, completesAt, scanStep]
        · simp [escChar, h, runScan, scanStep]
      · push_neg at h
        refine ⟨?_, ?_⟩
        · simp [escChar, h, scanAux, completesAt, scanStep, h.1, h.2]
        · simp [escChar, h, runScan, scanStep, h.1, h.2]
    have := Transparent.append h1 ih
    simpa [escString] using this

theorem transparent_strLit (d : Int) (s : List Char) :
    Transparent ⟨d, false, false⟩ (strLit s) := by
  have hesc := transparent_escString d s
  refine ⟨?_, ?_⟩
  · have hq : ¬ completesAt (⟨d, false, false⟩ : ScanState) '"' := by
      simp [completesAt]
    rw [strLit, List.cons_append, scanAux_cons_of_not _ _ _ hq]
    have hstep : scanStep ⟨d, false, false⟩ '"' = ⟨d, true, false⟩ := by
      simp [scanStep]
    rw [hstep, scanAux_append_of_none _ _ _ hesc.1, hesc.2]
    have : scanAux (⟨d, true, false⟩ : ScanState) ['"'] = none := by
      simp [scanAux, completesAt, scanStep]
    rw [this]
    rfl
  · rw [strLit, List.cons_append, runScan_cons]
    have hstep : scanStep ⟨d, false, false⟩ '"' = ⟨d, true, false⟩ := by
      simp [scanStep]
    rw [hstep, runScan_append, hesc.2]
    simp [runScan, scanStep]

/-! ## Braced blocks -/

theorem transparent_braced (d : Int) (hd : 1 ≤ d) (inner : List Char)
    (hin : Transparent ⟨d + 1, false, false⟩ inner) :
    Transparent ⟨d, false, false⟩ ('{' :: inner ++ ['}']) := by
  have hob : ¬ completesAt (⟨d, false, false⟩ : ScanState) '{' := by
    simp [completesAt]
  have hstep : scanStep ⟨d, false, false⟩ '{' = ⟨d + 1, false, false⟩ := by
    simp [scanStep]
  have hcb : ¬ completesAt (⟨d + 1, false, false⟩ : ScanState) '}' := by
    simp only [completesAt, not_and]
    intro _ _ _
    omega
  refine ⟨?_, ?_⟩
  · rw [List.cons_append, scanAux_cons_of_not _ _ _ hob, hstep,
      scanAux_append_of_none _ _ _ hin.1, hin.2]
    have : scanAux (⟨d + 1, false, false⟩ : ScanState) ['}'] = none := by
      rw [scanAux_cons_of_not _ _ _ hcb]
      rfl
    rw [this]
    rfl
  · rw [List.cons_append, runScan_cons, hstep, runScan_append, hin.2]
    simp [runScan, scanStep]

theorem transparent_cons_plain (d : Int) (c : Char)
    (h1 : c ≠ '"') (h2 : c ≠ '{') (h3 : c ≠ '}') {xs : List Char}
    (hx : Transparent ⟨d, false, false⟩ xs) :
    Transparent ⟨d, false, false⟩ (c :: xs) :=
  transparent_cons_of_step (fun hc => h3 hc.2.2.1) (by simp [scanStep, h1, h2, h3]) hx

mutual

theorem transparent_serialize (v : Json) (d : Int) (hd : 1 ≤ d) :
    Transparent ⟨d, false, false⟩ (serialize v) := by
  cases v with
  | null =>
    simp only [serialize]
    exact transparent_plain d _ (by decide)
  | boolean b =>
    cases b <;> (simp only [serialize]; exact transparent_plain d _ (by decide))
  | num n =>
    simp only [serialize]
    exact transparent_plain d _ (serializeNum_plain n)
  | str s =>
    simp only [serialize]
    exact transparent_strLit d s
  | arr xs =>
    simp only [serialize, List.cons_append]
    exact transparent_cons_plain d '[' (by decide) (by decide) (by decide)
      (Transparent.append (transparent_serializeArr xs d hd)
        (transparent_plain d [']'] (by decide)))
  | obj fs =>
    simp only [serialize]
    exact transparent_braced d hd _ (transparent_serializeObj fs (d + 1) (by omega))

theorem transparent_serializeArr (xs : JsonList) (d : Int) (hd : 1 ≤ d) :
    Transparent ⟨d, false, false⟩ (serializeArr xs) := by
  cases xs with
  | nil =>
    simp only [serializeArr]
    exact transparent_nil _
  | cons v tl =>
    simp only [serializeArr]
    exact Transparent.append (transparent_serialize v d hd)
      (transparent_serializeArrRest tl d hd)

theorem transparent_serializeArrRest (xs : JsonList) (d : Int) (hd : 1 ≤ d) :
    Transparent ⟨d, false, false⟩ (serializeArrRest xs) := by
  cases xs with
  | nil =>
    simp only [serializeArrRest]
    exact transparent_nil _
  | cons v tl =>
    simp only [serializeArrRest, List.cons_append]
    exact transparent_cons_plain d ',' (by decide) (by decide) (by decide)
      (Transparent.append (transparent_serialize v d hd)
        (transparent_serializeArrRest tl d hd))

theorem transparent_serializeObj (fs : JsonFields) (d : Int) (hd : 1 ≤ d) :
    Transparent ⟨d, false, false⟩ (serializeObj fs) := by
  cases fs with
  | nil =>
    simp only [serializeObj]
    exact transparent_nil _
  | cons k v tl =>
    simp only [serializeObj, List.append_assoc, List.cons_append]
    exact Transparent.append (transparent_strLit d k)
      (transparent_cons_plain d ':' (by decide) (by decide) (by decide)
        (Transparent.append (transparent_serialize v d hd)
          (transparent_serializeObjRest tl d hd)))

theorem transparent_serializeObjRest (fs : JsonFields) (d : Int) (hd : 1 ≤ d) :
    Transparent ⟨d, false, false⟩ (serializeObjRest fs) := by
  cases fs with
  | nil =>
    simp only [serializeObjRest]
    exact transparent_nil _
  | cons k v tl =>
    simp only [serializeObjRest, List.append_assoc, List.cons_append]
    exact transparent_cons_plain d ',' (by decide) (by decide) (by decide)
      (Transparent.append (transparent_strLit d k)
        (transparent_cons_plain d ':' (by decide) (by decide) (by decide)
          (Transparent.append (transparent_serialize v d hd)
            (transparent_serializeObjRest tl d hd))))

end

/-! ## Completion of the scan on a serialized top-level object -/

theorem scanAux_obj (fs : JsonFields) (rest : List Char) :
    scanAux initScan (serialize (Json.obj fs) ++ rest) =
      some (serialize (Json.obj fs)).length := by
  have hb := transparent_serializeObj fs 1 le_rfl
  have hob : ¬ completesAt initScan '{' := by
    simp [completesAt, initScan]
  have hstep : scanStep initScan '{' = ⟨1, false, false⟩ := by
    simp [scanStep, initScan]
  have hcb : completesAt (⟨1, false, false⟩ : ScanState) '}' :=
    ⟨rfl, rfl, rfl, rfl⟩
  simp only [serialize]
  rw [List.append_assoc, List.cons_append, List.singleton_append,
    scanAux_cons_of_not _ _ _ hob, hstep,
    scanAux_append_of_none _ _ _ hb.1, hb.2,
    scanAux_cons_of_completes _ _ _ hcb]
  simp [List.length_append]
  omega

theorem extractFrames_of_none (buf : List Char) (h : scanAux initScan buf = none) :
    extractFrames buf = ([], buf) := by
  conv_lhs => rw [extractFrames.eq_def]
  split
  next => rfl
  next n heq =>
    rw [h] at heq
    exact Option.noConfusion heq

theorem extractFrames_of_some (buf : List Char) (n : Nat)
    (h : scanAux initScan buf = some n) :
    extractFrames buf =
      (buf.take n :: (extractFrames (buf.drop n)).1, (extractFrames (buf.drop n)).2) := by
  conv_lhs => rw [extractFrames.eq_def]
  split
  next heq =>
    rw [h] at heq
    exact Option.noConfusion heq
  next m heq =>
    rw [h] at heq
    injection heq with hnm
    subst hnm
    rfl

theorem extractFrames_nil : extractFrames [] = ([], []) :=
  extractFrames_of_none [] rfl

/-- Removing a completed leading object message from the front of the buffer
and restarting the scan at offset zero. -/
theorem extractFrames_obj_cons (fs : JsonFields) (rest : List Char) :
    extractFrames (serialize (Json.obj fs) ++ rest) =
      (serialize (Json.obj fs) :: (extractFrames rest).1, (extractFrames rest).2) := by
  have h := scanAux_obj fs rest
  rw [extractFrames_of_some _ _ h, List.take_left, List.drop_left]

theorem extractFrames_obj (fs : JsonFields) :
    extractFrames (serialize (Json.obj fs)) = ([serialize (Json.obj fs)], []) := by
  have h := extractFrames_obj_cons fs []
  rw [List.append_nil] at h
  rw [h, extractFrames_nil]

theorem serialize_obj_length_pos (fs : JsonFields) :
    0 < (serialize (Json.obj fs)).length := by
  simp [serialize]

theorem scanAux_proper_pre (full p q : List Char)
    (hfull : scanAux initScan full = some full.length)
    (hpq : p ++ q = full) (hq : q ≠ []) : scanAux initScan p = none := by
  cases hsp : scanAux initScan p with
  | none => rfl
  | some m =>
    exfalso
    have h2 : scanAux initScan (p ++ q) = some m :=
      scanAux_append_of_some _ _ _ _ hsp
    rw [hpq, hfull] at h2
    injection h2 with h3
    have hb := scanAux_bounds _ _ _ hsp
    have hlen : full.length = p.length + q.length := by
      rw [← hpq, List.length_append]
    have hqlen : 0 < q.length := List.length_pos.mpr hq
    omega

theorem feedChunk_of_incomplete (acc : List (List Char)) (p chunk : List Char)
    (h : scanAux initScan (p ++ chunk) = none) :
    feedChunk (acc, p) chunk = (acc, p ++ chunk) := by
  unfold feedChunk
  rw [extractFrames_of_none _ h]
  simp

theorem feedAll_aux (full : List Char)
    (hfull : scanAux initScan full = some full.length)
    (hx : extractFrames full = ([full], [])) :
    ∀ (chunks : List (List Char)) (acc : List (List Char)) (p : List Char),
      (∀ c ∈ chunks, c ≠ []) → p ++ chunks.flatten = full → p.length < full.length →
      chunks.foldl feedChunk (acc, p) = (acc ++ [full], []) := by
  intro chunks
  induction chunks with
  | nil =>
    intro acc p hne hjoin hlt
    exfalso
    rw [List.flatten_nil, List.append_nil] at hjoin
    rw [hjoin] at hlt
    omega
  | cons c tl ih =>
    intro acc p hne hjoin hlt
    rw [List.flatten_cons] at hjoin
    rw [List.foldl_cons]
    by_cases htl : tl.flatten = []
    · have htlnil : tl = [] := by
        cases tl with
        | nil => rfl
        | cons t ts =>
          exfalso
          rw [List.flatten_cons] at htl
          have ht : t ≠ [] := hne t (by simp)
          exact ht (List.append_eq_nil.mp htl).1
      subst htlnil
      rw [List.flatten_nil, List.append_nil] at hjoin
      rw [List.foldl_nil]
      unfold feedChunk
      simp only
      rw [hjoin, hx]
    · have hpc : (p ++ c) ++ tl.flatten = full := by
        rw [List.append_assoc]
        exact hjoin
      have hnone : scanAux initScan (p ++ c) = none :=
        scanAux_proper_pre full (p ++ c) tl.flatten hfull hpc htl
      rw [feedChunk_of_incomplete acc p c hnone]
      refine ih acc (p ++ c) (fun x hx2 => hne x (List.mem_cons_of_mem c hx2)) hpc ?_
      have hj : 0 < tl.flatten.length := List.length_pos.mpr htl
      have hl := congrArg List.length hpc
      simp only [List.length_append] at hl ⊢
      omega

/-! ## Helper lemmas about dispatch folds and the lifecycle -/

theorem ProcessMessages_foldl (s : ServerState) (msgs : List ParseResult)
    (acc : List Json) :
    msgs.foldl
      (fun acc2 m => ((ProcessCommand acc2.1 m).1, acc2.2 ++ [(ProcessCommand acc2.1 m).2]))
      (s, acc) =
    (s, acc ++ msgs.map fun m => ProcessCommandResponse s.CommandHandlers m) := by
  induction msgs generalizing acc with
  | nil => simp
  | cons m tl ih =>
    rw [List.foldl_cons]
    show tl.foldl _ (s, acc ++ [ProcessCommandResponse s.CommandHandlers m]) = _
    rw [ih]
    simp

theorem ProcessMessages_eq (s : ServerState) (msgs : List ParseResult) :
    ProcessMessages s msgs =
      (s, msgs.map fun m => ProcessCommandResponse s.CommandHandlers m) := by
  unfold ProcessMessages
  simpa using ProcessMessages_foldl s msgs []

theorem runEvents_running_iff_aux (evts : List ServerEvent) :
    ∀ s : ServerState,
      IsRunning (evts.foldl applyEvent s) = true ↔
        ((IsRunning s = true ∧ ∀ e ∈ evts, e ≠ ServerEvent.stop) ∨
          (∃ pre post, evts = pre ++ ServerEvent.start true :: post ∧
            ∀ e ∈ post, e ≠ ServerEvent.stop)) := by
  induction evts with
  | nil =>
    intro s
    simp
  | cons e tl ih =>
    intro s
    rw [List.foldl_cons, ih (applyEvent s e)]
    cases e with
    | start ok =>
      have hap : IsRunning (applyEvent s (ServerEvent.start ok)) = (IsRunning s || ok) := by
        cases ok <;> simp [applyEvent, Start, IsRunning]
      rw [hap]
      constructor
      · rintro (⟨hb, hns⟩ | ⟨pre, post, heq, hns⟩)
        · rcases Bool.or_eq_true_iff.mp hb with hs | hok
          · refine Or.inl ⟨hs, ?_⟩
            intro x hx
            rcases List.mem_cons.mp hx with rfl | hx2
            · simp
            · exact hns x hx2
          · subst hok
            exact Or.inr ⟨[], tl, rfl, hns⟩
        · exact Or.inr ⟨ServerEvent.start ok :: pre, post, by rw [heq, List.cons_append], hns⟩
      · rintro (⟨hs, hns⟩ | ⟨pre, post, heq, hns⟩)
        · exact Or.inl ⟨by simp [hs], fun x hx => hns x (List.mem_cons_of_mem _ hx)⟩
        · cases pre with
          | nil =>
            rw [List.nil_append] at heq
            injection heq with h1 h2
            injection h1 with h3
            subst h3
            subst h2
            exact Or.inl ⟨by simp, hns⟩
          | cons p pre2 =>
            rw [List.cons_append] at heq
            injection heq with h1 h2
            subst h2
            exact Or.inr ⟨pre2, post, rfl, hns⟩
    | stop =>
      have hap : IsRunning (applyEvent s ServerEvent.stop) = false := by
        simp [applyEvent, Stop, IsRunning]
      rw [hap]
      constructor
      · rintro (⟨hb, _⟩ | ⟨pre, post, heq, hns⟩)
        · exact absurd hb (by simp)
        · exact Or.inr ⟨ServerEvent.stop :: pre, post, by rw [heq, List.cons_append], hns⟩
      · rintro (⟨_, hns⟩ | ⟨pre, post, heq, hns⟩)
        · exact absurd rfl (hns ServerEvent.stop (List.mem_cons_self _ _))
        · cases pre with
          | nil =>
            rw [List.nil_append] at heq
            injection heq with h1 _
            exact ServerEvent.noConfusion h1
          | cons p pre2 =>
            rw [List.cons_append] at heq
            injection heq with h1 h2
            subst h2
            exact Or.inr ⟨pre2, post, rfl, hns⟩

/-! ## Claim theorems -/

/-- Claim C2: for every valid JSON object and every splitting of its
serialized bytes into non-empty chunks, feeding the chunks to the framing
engine in order extracts exactly one message once all chunks are delivered,
equal to the message extracted from a single-chunk delivery; while no
complete top-level object is present, the buffer is left untouched. -/
theorem frame_chunked_delivery (fs : JsonFields) (chunks : List (List Char))
    (hne : ∀ c ∈ chunks, c ≠ [])
    (hjoin : chunks.flatten = serialize (Json.obj fs)) :
    feedAll chunks = ([serialize (Json.obj fs)], []) ∧
    extractFrames (serialize (Json.obj fs)) = ([serialize (Json.obj fs)], []) ∧
    (∀ buf : List Char, scanAux initScan buf = none → extractFrames buf = ([], buf)) := by
  have hfull : scanAux initScan (serialize (Json.obj fs)) =
      some (serialize (Json.obj fs)).length := by
    have h := scanAux_obj fs []
    rwa [List.append_nil] at h
  have hx := extractFrames_obj fs
  refine ⟨?_, hx, fun buf h => extractFrames_of_none buf h⟩
  have h := feedAll_aux (serialize (Json.obj fs)) hfull hx chunks [] [] hne
    (by simpa using hjoin) (by simpa using serialize_obj_length_pos fs)
  simpa [feedAll] using h

/-- Witness for C2 at the concrete object with no fields, split into two
single-byte chunks. -/
theorem frame_chunked_delivery_witness :
    feedAll [['{'], ['}']] = ([['{', '}']], []) := by
  have hs : serialize (Json.obj JsonFields.nil) = ['{', '}'] := by
    simp [serialize, serializeObj]
  have h := frame_chunked_delivery JsonFields.nil [['{'], ['}']]
    (by decide) (by rw [hs]; rfl)
  rw [hs] at h
  exact h.1

/-- Claim C3: two complete top-level objects concatenated in one read are
extracted as two messages and dispatched in the order they appeared; a
completed message's byte range is removed from the front of the buffer and
the scan restarts from offset zero on the remainder. -/
theorem frame_concatenated_objects (fs1 fs2 : JsonFields)
    (reg : List (List Char × IMCPCommandHandler))
    (parse : List Char → ParseResult) :
    extractFrames (serialize (Json.obj fs1) ++ serialize (Json.obj fs2)) =
      ([serialize (Json.obj fs1), serialize (Json.obj fs2)], []) ∧
    dispatchFrames reg parse (serialize (Json.obj fs1) ++ serialize (Json.obj fs2)) =
      ([ProcessCommandResponse reg (parse (serialize (Json.obj fs1))),
        ProcessCommandResponse reg (parse (serialize (Json.obj fs2)))], []) ∧
    (∀ rest : List Char,
      extractFrames (serialize (Json.obj fs1) ++ rest) =
        (serialize (Json.obj fs1) :: (extractFrames rest).1, (extractFrames rest).2)) := by
  have h2 : extractFrames (serialize (Json.obj fs1) ++ serialize (Json.obj fs2)) =
      ([serialize (Json.obj fs1), serialize (Json.obj fs2)], []) := by
    rw [extractFrames_obj_cons fs1 (serialize (Json.obj fs2)), extractFrames_obj fs2]
  refine ⟨h2, ?_, fun rest => extractFrames_obj_cons fs1 rest⟩
  unfold dispatchFrames
  rw [h2]
  rfl

/-- Claim C9, counterexample: the `FMCPClientConnection` constructor
(header lines 55-61) calls `SetNumUninitialized(BufferSize)`, so the
connection is not created with an empty receive buffer: at the default
buffer size 8192 the freshly constructed buffer is non-empty. -/
theorem connection_buffer_not_empty :
    ¬ (mkFMCPClientConnection 0 (0, 0) 8192).ReceiveBuffer = [] := by
  intro h
  have h2 : (List.replicate 8192 (0 : Nat)).length = ([] : List Nat).length :=
    congrArg List.length h
  rw [List.length_replicate, List.length_nil] at h2
  exact absurd h2 (by norm_num)

/-- Claim C9, amended: for every successful accept, the connection inserted
into the active set is created with zero idle time and a receive buffer
preallocated to the configured `ReceiveBufferSize` elements (uninitialised
contents), not an empty buffer. -/
theorem accepted_connection_state (cfg : FMCPTCPServerConfig)
    (conns : List FMCPClientConnection) (sock : Nat) (ep : Nat × Nat) :
    HandleConnectionAccepted cfg conns sock ep =
      conns ++ [mkFMCPClientConnection sock ep cfg.ReceiveBufferSize] ∧
    mkFMCPClientConnection sock ep cfg.ReceiveBufferSize ∈
      HandleConnectionAccepted cfg conns sock ep ∧
    (mkFMCPClientConnection sock ep cfg.ReceiveBufferSize).TimeSinceLastActivity = 0 ∧
    (mkFMCPClientConnection sock ep cfg.ReceiveBufferSize).ReceiveBuffer.length =
      cfg.ReceiveBufferSize := by
  refine ⟨rfl, ?_, rfl, by simp [mkFMCPClientConnection]⟩
  simp [HandleConnectionAccepted]

/-- Claim C7: a `Start` that fails to bind reports failure and leaves the
server not running; and `IsRunning` is true exactly when some `Start`
succeeded and no `Stop` followed it. -/
theorem start_failure_and_running_iff (s : ServerState) (evts : List ServerEvent) :
    (IsRunning s = false →
      (Start s false).2 = false ∧ IsRunning (Start s false).1 = false) ∧
    (IsRunning (runEvents evts) = true ↔
      ∃ pre post, evts = pre ++ ServerEvent.start true :: post ∧
        ∀ e ∈ post, e ≠ ServerEvent.stop) := by
  constructor
  · intro hs
    exact ⟨by simp [Start], by simp [Start, IsRunning]; exact hs⟩
  · rw [runEvents, runEvents_running_iff_aux evts initialServer]
    simp [IsRunning, initialServer]

/-- Witness for C7: a failing bind from the fresh server reports false, and
one successful start with no stop leaves the server running. -/
theorem start_failure_and_running_iff_witness :
    (Start initialServer false).2 = false ∧
    IsRunning (runEvents [ServerEvent.start true]) = true := by
  have h := start_failure_and_running_iff initialServer [ServerEvent.start true]
  exact ⟨(h.1 rfl).1, h.2.mpr ⟨[], [], rfl, by simp⟩⟩

/-! ## Registry lemmas -/

theorem registryLookup_register_self (reg : List (List Char × IMCPCommandHandler))
    (h : IMCPCommandHandler) :
    registryLookup (RegisterCommandHandler reg h) h.GetCommandName = some h := by
  induction reg with
  | nil => simp [RegisterCommandHandler, registryLookup]
  | cons p tl ih =>
    obtain ⟨k, v⟩ := p
    by_cases hk : k = h.GetCommandName
    · simp [RegisterCommandHandler, hk, registryLookup]
    · simp [RegisterCommandHandler, hk, registryLookup, ih]

theorem register_keys_of_mem (reg : List (List Char × IMCPCommandHandler))
    (h : IMCPCommandHandler) (hmem : h.GetCommandName ∈ reg.map Prod.fst) :
    (RegisterCommandHandler reg h).map Prod.fst = reg.map Prod.fst := by
  induction reg with
  | nil => simp at hmem
  | cons p tl ih =>
    obtain ⟨k, v⟩ := p
    by_cases hk : k = h.GetCommandName
    · simp [RegisterCommandHandler, hk]
    · have hmem2 : h.GetCommandName ∈ tl.map Prod.fst := by
        simp only [List.map_cons, List.mem_cons] at hmem
        rcases hmem with h1 | h1
        · exact absurd h1.symm hk
        · exact h1
      simp [RegisterCommandHandler, hk, ih hmem2]

theorem register_mem (reg : List (List Char × IMCPCommandHandler))
    (h : IMCPCommandHandler) :
    ∀ p ∈ RegisterCommandHandler reg h, p ∈ reg ∨ p = (h.GetCommandName, h) := by
  induction reg with
  | nil =>
    intro p hp
    simp [RegisterCommandHandler] at hp
    exact Or.inr hp
  | cons q tl ih =>
    obtain ⟨k, v⟩ := q
    intro p hp
    by_cases hk : k = h.GetCommandName
    · simp only [RegisterCommandHandler, if_pos hk, List.mem_cons] at hp
      rcases hp with h1 | h1
      · subst hk
        exact Or.inr h1
      · exact Or.inl (List.mem_cons_of_mem _ h1)
    · simp only [RegisterCommandHandler, if_neg hk, List.mem_cons] at hp
      rcases hp with h1 | h1
      · exact Or.inl (h1 ▸ List.mem_cons_self _ _)
      · rcases ih p h1 with h2 | h2
        · exact Or.inl (List.mem_cons_of_mem _ h2)
        · exact Or.inr h2

theorem unregister_subset (reg : List (List Char × IMCPCommandHandler))
    (name : List Char) :
    ∀ p ∈ UnregisterCommandHandler reg name, p ∈ reg := by
  induction reg with
  | nil =>
    intro p hp
    simp [UnregisterCommandHandler] at hp
  | cons q tl ih =>
    obtain ⟨k, v⟩ := q
    intro p hp
    by_cases hk : k = name
    · simp only [UnregisterCommandHandler, if_pos hk] at hp
      exact List.mem_cons_of_mem _ (ih p hp)
    · simp only [UnregisterCommandHandler, if_neg hk, List.mem_cons] at hp
      rcases hp with h1 | h1
      · exact h1 ▸ List.mem_cons_self _ _
      · exact List.mem_cons_of_mem _ (ih p h1)

theorem unregister_lookup (reg : List (List Char × IMCPCommandHandler))
    (name k : List Char) :
    registryLookup (UnregisterCommandHandler reg name) k =
      if k = name then none else registryLookup reg k := by
  induction reg with
  | nil => simp [UnregisterCommandHandler, registryLookup]
  | cons q tl ih =>
    obtain ⟨k2, v⟩ := q
    by_cases h1 : k2 = name
    · simp only [UnregisterCommandHandler, if_pos h1]
      rw [ih]
      subst h1
      by_cases h2 : k = k2
      · simp [h2, registryLookup]
      · have h3 : ¬ k2 = k := fun hh => h2 hh.symm
        simp [h2, h3, registryLookup]
    · simp only [UnregisterCommandHandler, if_neg h1, registryLookup]
      by_cases h2 : k2 = k
      · have h3 : ¬ k = name := fun hh => h1 (by rw [h2]; exact hh)
        simp [h2, h3]
      · simp only [if_neg h2]
        rw [ih]

/-- Claim C6: registering a handler under a name already present replaces the
prior handler — the registry keys are unchanged (hence stay unique) and every
subsequent dispatch of that command invokes only the newly registered
handler. -/
theorem register_last_write_wins (reg : List (List Char × IMCPCommandHandler))
    (h : IMCPCommandHandler)
    (hmem : h.GetCommandName ∈ reg.map Prod.fst) :
    (RegisterCommandHandler reg h).map Prod.fst = reg.map Prod.fst ∧
    ((reg.map Prod.fst).Nodup → ((RegisterCommandHandler reg h).map Prod.fst).Nodup) ∧
    registryLookup (RegisterCommandHandler reg h) h.GetCommandName = some h ∧
    (∀ j r : Json, getCommand j = some h.GetCommandName →
      h.HandleCommand (getParams j) = Except.ok r →
      ProcessCommandResponse (RegisterCommandHandler reg h) (ParseResult.parsed j) =
        envOk r) := by
  have hkeys := register_keys_of_mem reg h hmem
  refine ⟨hkeys, ?_, registryLookup_register_self reg h, ?_⟩
  · intro hnd
    rwa [hkeys]
  · intro j r hcmd hok
    simp [ProcessCommandResponse, hcmd, registryLookup_register_self reg h, hok]

/-- Witness for C6: re-registering the name already stored in a one-entry
registry makes lookup return the new handler. -/
theorem register_last_write_wins_witness :
    registryLookup
      (RegisterCommandHandler
        [("ping".toList, ⟨"ping".toList, fun _ => Except.error "old".toList⟩)]
        ⟨"ping".toList, fun _ => Except.ok Json.null⟩)
      "ping".toList =
      some ⟨"ping".toList, fun _ => Except.ok Json.null⟩ :=
  (register_last_write_wins
    [("ping".toList, ⟨"ping".toList, fun _ => Except.error "old".toList⟩)]
    ⟨"ping".toList, fun _ => Except.ok Json.null⟩ (by simp)).2.2.1

/-- Claim C10: every registry entry is keyed by its handler's
`GetCommandName` — registration derives the key from the handler alone, both
registration and removal preserve that invariant, and removal deletes exactly
the entry stored under the given name. -/
theorem registry_key_derivation (reg : List (List Char × IMCPCommandHandler))
    (h : IMCPCommandHandler) (name k : List Char) :
    (∀ p ∈ RegisterCommandHandler reg h, p ∈ reg ∨ p = (h.GetCommandName, h)) ∧
    (RegistryKeysMatch reg → RegistryKeysMatch (RegisterCommandHandler reg h)) ∧
    (RegistryKeysMatch reg → RegistryKeysMatch (UnregisterCommandHandler reg name)) ∧
    registryLookup (UnregisterCommandHandler reg name) k =
      (if k = name then none else registryLookup reg k) := by
  refine ⟨register_mem reg h, ?_, ?_, unregister_lookup reg name k⟩
  · intro hkm p hp
    rcases register_mem reg h p hp with h1 | h1
    · exact hkm p h1
    · rw [h1]
  · intro hkm p hp
    exact hkm p (unregister_subset reg name p hp)

/-- Witness for C10: removing the only entry of a one-entry registry makes
lookup of its name return nothing, and registration preserves key matching. -/
theorem registry_key_derivation_witness :
    registryLookup
      (UnregisterCommandHandler
        [("ping".toList, ⟨"ping".toList, fun _ => Except.ok Json.null⟩)] "ping".toList)
      "ping".toList = none ∧
    RegistryKeysMatch
      (RegisterCommandHandler [] ⟨"ping".toList, fun _ => Except.ok Json.null⟩) := by
  have h := registry_key_derivation
    [("ping".toList, ⟨"ping".toList, fun _ => Except.ok Json.null⟩)]
    ⟨"ping".toList, fun _ => Except.ok Json.null⟩ "ping".toList "ping".toList
  have h2 := registry_key_derivation [] ⟨"ping".toList, fun _ => Except.ok Json.null⟩
    "ping".toList "ping".toList
  refine ⟨?_, h2.2.1 (by intro p hp; simp at hp)⟩
  rw [h.2.2.2]
  simp

/-- Claim C1: a failure raised by the invoked handler is caught at the
dispatcher boundary and converted to the error envelope carrying its
description; the server state — running flag and connection set — is
unchanged (the connection is not evicted, the scheduler loop not
terminated), and every other queued message still gets its response. -/
theorem handler_failure_contained (s : ServerState) (j : Json)
    (name d : List Char) (h : IMCPCommandHandler)
    (hcmd : getCommand j = some name)
    (hlook : registryLookup s.CommandHandlers name = some h)
    (hfail : h.HandleCommand (getParams j) = Except.error d) :
    (ProcessCommand s (ParseResult.parsed j)).2 = envError d ∧
    (∀ m : ParseResult, (ProcessCommand s m).1 = s) ∧
    (∀ msgs : List ParseResult,
      (ProcessMessages s msgs).1 = s ∧
      (ProcessMessages s msgs).2.length = msgs.length) := by
  refine ⟨?_, fun m => rfl, fun msgs => ?_⟩
  · show ProcessCommandResponse s.CommandHandlers (ParseResult.parsed j) = envError d
    simp [ProcessCommandResponse, hcmd, hlook, hfail]
  · rw [ProcessMessages_eq]
    simp

/-- Witness for C1: a registered handler that raises an error on every input
produces the error envelope with its description, with the server state
untouched. -/
theorem handler_failure_contained_witness :
    (ProcessCommand
      ⟨true, [], [("ping".toList, ⟨"ping".toList, fun _ => Except.error "boom".toList⟩)]⟩
      (ParseResult.parsed
        (Json.obj (JsonFields.cons "command".toList (Json.str "ping".toList)
          JsonFields.nil)))).2 = envError "boom".toList := by
  exact (handler_failure_contained
    ⟨true, [], [("ping".toList, ⟨"ping".toList, fun _ => Except.error "boom".toList⟩)]⟩
    (Json.obj (JsonFields.cons "command".toList (Json.str "ping".toList) JsonFields.nil))
    "ping".toList "boom".toList
    ⟨"ping".toList, fun _ => Except.error "boom".toList⟩
    rfl rfl rfl).1

/-- Claim C4: parse failure yields the invalid-json envelope independently of
the registry (no handler is consulted); a parsed message without a `command`
string field yields the missing-command envelope; an unregistered command
yields the unknown-command envelope naming it; in every case the server
state, and hence the connection, is untouched and usable for subsequent
requests. -/
theorem dispatcher_error_envelopes
    (reg reg2 : List (List Char × IMCPCommandHandler)) (s : ServerState)
    (j : Json) (name : List Char) :
    (ProcessCommandResponse reg ParseResult.malformed = envError "invalid json".toList ∧
      ProcessCommandResponse reg2 ParseResult.malformed =
        ProcessCommandResponse reg ParseResult.malformed) ∧
    (getCommand j = none →
      ProcessCommandResponse reg (ParseResult.parsed j) =
        envError "missing command".toList) ∧
    (getCommand j = some name → registryLookup reg name = none →
      ProcessCommandResponse reg (ParseResult.parsed j) =
        envError ("unknown command: ".toList ++ name)) ∧
    (∀ m : ParseResult, (ProcessCommand s m).1 = s) := by
  refine ⟨⟨rfl, rfl⟩, ?_, ?_, fun m => rfl⟩
  · intro hc
    simp [ProcessCommandResponse, hc]
  · intro hc hl
    simp [ProcessCommandResponse, hc, hl]

/-- Witness for C4 on the empty registry: the three error envelopes at
concrete inputs. -/
theorem dispatcher_error_envelopes_witness :
    ProcessCommandResponse [] ParseResult.malformed = envError "invalid json".toList ∧
    ProcessCommandResponse [] (ParseResult.parsed Json.null) =
      envError "missing command".toList ∧
    ProcessCommandResponse []
      (ParseResult.parsed
        (Json.obj (JsonFields.cons "command".toList (Json.str "ping".toList)
          JsonFields.nil))) =
      envError ("unknown command: ".toList ++ "ping".toList) := by
  have h := dispatcher_error_envelopes [] [] initialServer Json.null "ping".toList
  have h2 := dispatcher_error_envelopes [] [] initialServer
    (Json.obj (JsonFields.cons "command".toList (Json.str "ping".toList) JsonFields.nil))
    "ping".toList
  exact ⟨h.1.1, h.2.1 rfl, h2.2.2.1 rfl rfl⟩

/-! ## Timeout sweep lemmas -/

theorem mem_tickIdle (timeout delta : ℚ) (reads : Nat → Bool)
    (conns : List Connection) (c2 : Connection) :
    c2 ∈ tickIdle timeout delta reads conns ↔
      c2.idleSeconds < timeout ∧ ∃ c ∈ conns,
        c2 = ⟨c.handle, c.remote,
          (if reads c.handle then 0 else c.idleSeconds) + delta, c.buffer⟩ := by
  unfold tickIdle CheckClientTimeouts
  constructor
  · intro h
    rcases List.mem_filter.mp h with ⟨hmem, hp⟩
    rcases List.mem_map.mp hmem with ⟨c1, hc1, hage⟩
    rcases List.mem_map.mp hc1 with ⟨c0, hc0, hreset⟩
    subst hreset
    subst hage
    refine ⟨by simpa using hp, c0, hc0, ?_⟩
    by_cases hr : reads c0.handle <;> simp [hr]
  · rintro ⟨hlt, c, hc, rfl⟩
    refine List.mem_filter.mpr ⟨?_, by simpa using hlt⟩
    refine List.mem_map.mpr
      ⟨if reads c.handle then ⟨c.handle, c.remote, 0, c.buffer⟩ else c,
        List.mem_map.mpr ⟨c, hc, rfl⟩, ?_⟩
    by_cases hr : reads c.handle <;> simp [hr]

theorem tick_no_new_handles (timeout : ℚ) :
    ∀ (later : List (ℚ × (Nat → Bool))) (conns : List Connection) (hid : Nat),
      (∀ c ∈ conns, c.handle ≠ hid) →
      ∀ c2 ∈ later.foldl (fun cs p => tickIdle timeout p.1 p.2 cs) conns,
        c2.handle ≠ hid := by
  intro later
  induction later with
  | nil =>
    intro conns hid h c2 h2
    exact h c2 h2
  | cons p tl ih =>
    intro conns hid h c2 h2
    rw [List.foldl_cons] at h2
    refine ih (tickIdle timeout p.1 p.2 conns) hid ?_ c2 h2
    intro c3 h3
    obtain ⟨_, c0, hc0, rfl⟩ := (mem_tickIdle _ _ _ _ _).mp h3
    exact h c0 hc0

/-- Claim C5: each tick adds the elapsed delta to every connection's idle
time, resetting it to zero first when the connection had a successful
non-zero read; every connection surviving the sweep has idle time below the
timeout; a connection whose accumulated idle time meets or exceeds the
timeout is evicted by that tick's sweep; and an evicted handle never
reappears on later ticks. -/
theorem timeout_sweep_eviction (timeout delta : ℚ) (reads : Nat → Bool)
    (conns : List Connection)
    (hnd : (conns.map Connection.handle).Nodup) :
    (∀ c2 ∈ tickIdle timeout delta reads conns,
      c2.idleSeconds < timeout ∧ ∃ c ∈ conns,
        c2 = ⟨c.handle, c.remote,
          (if reads c.handle then 0 else c.idleSeconds) + delta, c.buffer⟩) ∧
    (∀ c ∈ conns,
      ((if reads c.handle then 0 else c.idleSeconds) + delta < timeout →
        (⟨c.handle, c.remote,
          (if reads c.handle then 0 else c.idleSeconds) + delta, c.buffer⟩ : Connection) ∈
            tickIdle timeout delta reads conns) ∧
      (timeout ≤ (if reads c.handle then 0 else c.idleSeconds) + delta →
        ∀ c2 ∈ tickIdle timeout delta reads conns, c2.handle ≠ c.handle)) ∧
    (∀ (later : List (ℚ × (Nat → Bool))) (hid : Nat),
      (∀ c ∈ conns, c.handle ≠ hid) →
      ∀ c2 ∈ later.foldl (fun cs p => tickIdle timeout p.1 p.2 cs) conns,
        c2.handle ≠ hid) := by
  refine ⟨fun c2 h2 => (mem_tickIdle _ _ _ _ _).mp h2, fun c hc => ⟨?_, ?_⟩,
    fun later hid h => tick_no_new_handles timeout later conns hid h⟩
  · intro hlt
    exact (mem_tickIdle _ _ _ _ _).mpr ⟨hlt, c, hc, rfl⟩
  · intro hge c2 h2 heq
    obtain ⟨hlt2, c0, hc0, rfl⟩ := (mem_tickIdle _ _ _ _ _).mp h2
    have hc0c : c0 = c := List.inj_on_of_nodup_map hnd hc0 hc heq
    subst hc0c
    exact absurd hlt2 (not_lt.mpr hge)

/-- Witness for C5: a connection idle for one 1-second tick of a 30-second
timeout survives with idle time 1; a 31-second tick with no read evicts it
and its handle is gone. -/
theorem timeout_sweep_eviction_witness :
    ((⟨1, (0, 0), 1, []⟩ : Connection) ∈
      tickIdle 30 1 (fun _ => false) [⟨1, (0, 0), 0, []⟩]) ∧
    (∀ c2 ∈ tickIdle 30 31 (fun _ => false) [⟨1, (0, 0), 0, []⟩], c2.handle ≠ 1) := by
  have h1 := timeout_sweep_eviction 30 1 (fun _ => false) [⟨1, (0, 0), 0, []⟩] (by simp)
  have h2 := timeout_sweep_eviction 30 31 (fun _ => false) [⟨1, (0, 0), 0, []⟩] (by simp)
  constructor
  · have hm := (h1.2.1 ⟨1, (0, 0), 0, []⟩ (by simp)).1 (by norm_num)
    simpa using hm
  · intro c2 hc2
    exact (h2.2.1 ⟨1, (0, 0), 0, []⟩ (by simp)).2 (by norm_num) c2 hc2

/-- Claim C8: after the read phase of a tick, every surviving connection's
unconsumed buffer holds at most twice the configured receive buffer size;
a connection whose buffer exceeds that bound while the framing engine
yielded no complete frame is evicted during the tick. -/
theorem oversized_buffer_eviction (receiveBufferSize : Nat)
    (incoming : Nat → List Char) (conns : List Connection) :
    (∀ c2 ∈ readPhase receiveBufferSize incoming conns,
      c2.buffer.length ≤ 2 * receiveBufferSize) ∧
    (∀ (c : Connection) (bytes : List Char),
      extractFrames (c.buffer ++ bytes) = ([], c.buffer ++ bytes) →
      2 * receiveBufferSize < (c.buffer ++ bytes).length →
      readAndFrame receiveBufferSize bytes c = none) := by
  constructor
  · intro c2 h2
    unfold readPhase at h2
    obtain ⟨c, hc, heq⟩ := List.mem_filterMap.mp h2
    unfold readAndFrame at heq
    by_cases hb : 2 * receiveBufferSize <
        (extractFrames (c.buffer ++ incoming c.handle)).2.length
    · rw [if_pos hb] at heq
      exact Option.noConfusion heq
    · rw [if_neg hb] at heq
      simp only [Option.map_some'] at heq
      injection heq with heq2
      rw [← heq2]
      exact Nat.le_of_not_lt hb
  · intro c bytes hext hlen
    unfold readAndFrame
    rw [hext]
    have h2 : 2 * receiveBufferSize <
        ((([], c.buffer ++ bytes) : List (List Char) × List Char)).2.length := hlen
    rw [if_pos h2]

/-- Witness for C8: with a configured receive buffer size of zero, an
unterminated single-brace buffer exceeds the bound without a complete frame
and the connection is evicted. -/
theorem oversized_buffer_eviction_witness :
    readAndFrame 0 [] ⟨0, (0, 0), 0, ['{']⟩ = none := by
  have h := oversized_buffer_eviction 0 (fun _ => []) []
  have hnone : scanAux initScan (['{'] ++ []) = none := by decide
  exact h.2 ⟨0, (0, 0), 0, ['{']⟩ [] (extractFrames_of_none _ hnone) (by simp)

end UnrealMCP
